import Mathlib

/-!
Verification of the service-orchestrator / request-pipeline program `app.py`.

The Python source is shallowly embedded: strings are `List Char`, pure helper
functions become Lean functions, and the effectful operations (subprocess
calls, HTTP requests, the file system) become explicit state passing over an
environment record that fixes the outcome of each external effect.  Machine
integers do not occur (Python integers are unbounded), so `Nat`/`Int` are used
directly.  All definitions are written against the source; the names follow
`app.py` where Lean allows it.
-/

/-- Strings of the embedded program: Python `str` as a list of characters. -/
abbrev Str := List Char

/-- ASCII lower-casing of a single character, the embedding of Python
`str.lower` on the ASCII range (every allow-list entry and extension in the
program is ASCII). -/
def lowerChar (c : Char) : Char :=
  if 65 ≤ c.toNat ∧ c.toNat ≤ 90 then Char.ofNat (c.toNat + 32) else c

/-- Lower-casing of a whole string (`str.lower`). -/
def lowerStr (s : Str) : Str := s.map lowerChar

/-- ASCII whitespace, the characters removed by Python `str.strip()`. -/
def isPySpace (c : Char) : Bool :=
  c.toNat == 32 || c.toNat == 9 || c.toNat == 10 || c.toNat == 13 ||
    c.toNat == 11 || c.toNat == 12

/-- Removal of trailing characters satisfying `p`. -/
def dropTrailing (p : Char → Bool) (s : Str) : Str :=
  (s.reverse.dropWhile p).reverse

/-- Python `str.strip()`: leading and trailing whitespace removed. -/
def pyStrip (s : Str) : Str :=
  dropTrailing isPySpace (s.dropWhile isPySpace)

/-- Embedding of `os.path.basename` on POSIX (the deployment target of
`app.py`, which installs via `install.sh` and `pkill`): the part of the
string after the last `/`. -/
def basename (s : Str) : Str :=
  (s.reverse.takeWhile (fun c => decide (c ≠ '/'))).reverse

/-- Containment of the two-character sequence `..` (Python `'..' in s`). -/
def hasDotDot : Str → Bool
  | [] => false
  | '.' :: '.' :: _ => true
  | _ :: rest => hasDotDot rest

/-- Python `s.rsplit('.', 1)[1]`: the part after the last dot (meaningful when
a dot is present, which `validate_filename` checks first). -/
def extAfterDot (s : Str) : Str :=
  (s.reverse.takeWhile (fun c => decide (c ≠ '.'))).reverse

/-- ALLOWED_EXTENSIONS from `app.py` line 38. -/
def ALLOWED_EXTENSIONS : List Str := ["pdf".toList]

/-- Embedding of `validate_filename` (`app.py` lines 84-93). The non-string
branch of the Python guard is outside the `Str` domain; the empty-string
falsy check is the `isEmpty` test. -/
def validate_filename (s : Str) : Bool :=
  if s.isEmpty then false
  else if hasDotDot (basename s) || (basename s).contains '/' ||
      (basename s).contains '\\' then false
  else if 255 < (basename s).length then false
  else decide ('.' ∈ basename s) &&
    ALLOWED_EXTENSIONS.contains (lowerStr (extAfterDot (basename s)))

/-- ALLOWED_MODELS from `app.py` lines 50-57, as a list (the Python set's
iteration order does not affect the any-match loop). -/
def ALLOWED_MODELS : List Str :=
  ["llama2".toList, "llama2:7b".toList, "llama2:13b".toList, "llama2:70b".toList,
   "llama3".toList, "llama3:8b".toList, "llama3.2".toList, "llama3.2:1b".toList,
   "llama3.2:3b".toList, "mistral".toList, "mistral:7b".toList,
   "phi".toList, "phi:2.7b".toList, "phi3".toList,
   "codellama".toList, "codellama:7b".toList,
   "gemma".toList, "gemma:2b".toList, "gemma:7b".toList]

/-- Boolean test that `s` starts with `p` (Python `str.startswith`). -/
def startsWithL : Str → Str → Bool
  | _, [] => true
  | [], _ :: _ => false
  | a :: s, b :: p => a == b && startsWithL s p

/-- Embedding of `validate_model_name` (`app.py` lines 95-105).  Note the
source lower-cases and strips before the length-50 check and before the
allow-list loop. -/
def validate_model_name (s : Str) : Bool :=
  if s.isEmpty then false
  else if 50 < (pyStrip (lowerStr s)).length then false
  else ALLOWED_MODELS.any (fun a => pyStrip (lowerStr s) == a ||
    startsWithL (pyStrip (lowerStr s)) (a ++ [':']))

/-- Embedding of `sanitize_input` (`app.py` lines 107-115): truncation, then
null-byte removal, then angle-bracket escaping. -/
def replaceChar (c : Char) (r : Str) : Str → Str
  | [] => []
  | a :: rest => (if a = c then r else [a]) ++ replaceChar c r rest

/-- Embedding of `sanitize_input` itself; the Python default `max_length` is
10000, passed explicitly here. -/
def sanitize_input (text : Str) (maxLength : Nat) : Str :=
  let t := text.take maxLength
  let t := replaceChar (Char.ofNat 0) [] t
  let t := replaceChar '<' "&lt;".toList t
  replaceChar '>' "&gt;".toList t

/-- Case-insensitive test that the whole input ends in `.pdf`. -/
def endsPdfCI (s : Str) : Bool :=
  (lowerStr s).reverse.take 4 == "fdp.".toList

-- Supporting lemmas -----------------------------------------------------

/-- Evaluation of `Char.ofNat` on the lower-case ASCII letters. -/
theorem toNat_ofNat_lower {n : Nat} (h1 : 97 ≤ n) (h2 : n ≤ 122) :
    (Char.ofNat n).toNat = n := by
  interval_cases n <;> decide

/-- Lower-casing a character twice is the same as once. -/
theorem lowerChar_idem (c : Char) : lowerChar (lowerChar c) = lowerChar c := by
  by_cases h : 65 ≤ c.toNat ∧ c.toNat ≤ 90
  · have h1 : lowerChar c = Char.ofNat (c.toNat + 32) := by
      unfold lowerChar; rw [if_pos h]
    have hv : (Char.ofNat (c.toNat + 32)).toNat = c.toNat + 32 :=
      toNat_ofNat_lower (by omega) (by omega)
    rw [h1]
    unfold lowerChar
    rw [if_neg (by rw [hv]; omega)]
  · have h1 : lowerChar c = c := by unfold lowerChar; rw [if_neg h]
    rw [h1, h1]

/-- Lower-casing a string twice is the same as once. -/
theorem lowerStr_idem (s : Str) : lowerStr (lowerStr s) = lowerStr s := by
  unfold lowerStr
  rw [List.map_map]
  exact List.map_congr_left (fun c _ => lowerChar_idem c)

/-- The reverse of the input splits at the basename. -/
theorem reverse_eq_basename_append (s : Str) :
    s.reverse = (basename s).reverse ++
      s.reverse.dropWhile (fun c => decide (c ≠ '/')) := by
  unfold basename
  rw [List.reverse_reverse]
  exact (List.takeWhile_append_dropWhile _ _).symm

/-- Head of a `dropWhile` result fails the predicate. -/
theorem dropWhile_head_not {α : Type} (p : α → Bool) :
    ∀ (l : List α) (a : α) (t : List α), l.dropWhile p = a :: t → p a = false := by
  intro l
  induction l with
  | nil => intro a t h; simp [List.dropWhile] at h
  | cons x xs ih =>
    intro a t h
    rw [List.dropWhile_cons] at h
    by_cases hx : p x
    · rw [if_pos hx] at h; exact ih a t h
    · rw [if_neg hx] at h
      cases h
      simpa using hx

/-- The extension computation behind `validate_filename`: a dot in the
basename together with a `pdf` extension forces the whole input to end in
`.pdf` case-insensitively. -/
theorem endsPdfCI_of_ext (s : Str) (hdot : '.' ∈ basename s)
    (hext : lowerStr (extAfterDot (basename s)) = "pdf".toList) :
    endsPdfCI s = true := by
  set f := basename s with hf
  set fr := f.reverse with hfr
  have hmem : '.' ∈ fr := by
    rw [hfr, List.mem_reverse]; exact hdot
  set e := fr.takeWhile (fun c => decide (c ≠ '.')) with he2
  set d := fr.dropWhile (fun c => decide (c ≠ '.')) with hd2
  have hsplit : fr = e ++ d := (List.takeWhile_append_dropWhile _ _).symm
  have hdne : d ≠ [] := by
    intro hnil
    rw [hd2, List.dropWhile_eq_nil_iff] at hnil
    have := hnil '.' hmem
    simp at this
  obtain ⟨a, t, hat⟩ := List.exists_cons_of_ne_nil hdne
  have ha : a = '.' := by
    have hp := dropWhile_head_not (fun c => decide (c ≠ '.')) fr a t
      (by rw [← hd2]; exact hat)
    simpa using hp
  have hee : extAfterDot f = e.reverse := by
    rw [extAfterDot, ← hfr, ← he2]
  have hlow : lowerStr e = ['f', 'd', 'p'] := by
    have h1 : (lowerStr e).reverse = ['p', 'd', 'f'] := by
      have h0 : lowerStr (e.reverse) = "pdf".toList := by rw [← hee]; exact hext
      rw [lowerStr, List.map_reverse] at h0
      simpa using h0
    have h2 := congrArg List.reverse h1
    simpa using h2
  set X := s.reverse.dropWhile (fun c => decide (c ≠ '/')) with hX
  have hsr : s.reverse = (e ++ '.' :: t) ++ X := by
    have h3 := reverse_eq_basename_append s
    rw [← hf, ← hfr, ← hX] at h3
    rw [hsplit, hat, ha] at h3
    exact h3
  unfold endsPdfCI
  rw [show (lowerStr s).reverse = lowerStr s.reverse by
    rw [lowerStr, lowerStr, List.map_reverse]]
  rw [hsr]
  have hdotlow : lowerChar '.' = '.' := by decide
  simp only [lowerStr, List.map_append, List.map_cons]
  rw [hdotlow, ← lowerStr, hlow]
  rw [show ('f' :: 'd' :: 'p' :: []) ++ '.' :: (List.map lowerChar t) ++
      List.map lowerChar X =
      ['f', 'd', 'p', '.'] ++ ((List.map lowerChar t) ++ List.map lowerChar X)
    by simp]
  rw [List.take_append_of_le_length (by simp)]
  simp

/-- Anything accepted by `validate_filename` has a clean basename and ends,
case-insensitively, in `.pdf`. -/
theorem validate_filename_true_elim (s : Str) (h : validate_filename s = true) :
    hasDotDot (basename s) = false ∧ (basename s).contains '\\' = false ∧
      endsPdfCI s = true := by
  unfold validate_filename at h
  split at h
  next => exact absurd h (by simp)
  next hne =>
    split at h
    next => exact absurd h (by simp)
    next hbad =>
      split at h
      next => exact absurd h (by simp)
      next hlen =>
        simp only [Bool.and_eq_true, decide_eq_true_eq, ALLOWED_EXTENSIONS,
          List.contains_cons, List.contains_nil, Bool.or_false, beq_iff_eq] at h
        obtain ⟨hdot, hext⟩ := h
        simp only [Bool.or_eq_true, not_or, Bool.not_eq_true] at hbad
        obtain ⟨⟨hb1, hb2⟩, hb3⟩ := hbad
        exact ⟨hb1, hb3, endsPdfCI_of_ext s hdot hext⟩

-- C1 --------------------------------------------------------------------

/-- C1 counterexample: the input `a/b.pdf` contains a path separator, yet
`validate_filename` accepts it, because the source takes `os.path.basename`
before checking for separators. -/
theorem validate_filename_accepts_separator_path :
    ('/' ∈ "a/b.pdf".toList) ∧ validate_filename "a/b.pdf".toList = true := by
  constructor
  · decide
  · decide

/-- C1 (amended): `validate_filename` returns false whenever the final path
component (the basename) contains a parent-directory sequence `..` or a
backslash, or the input does not end case-insensitively in `.pdf`; a path
separator in the directory part is stripped by `basename` first and does not
by itself cause rejection. -/
theorem validate_filename_rejects (s : Str)
    (h : hasDotDot (basename s) = true ∨ (basename s).contains '\\' = true ∨
      endsPdfCI s = false) :
    validate_filename s = false := by
  cases hv : validate_filename s with
  | false => rfl
  | true =>
    obtain ⟨h1, h2, h3⟩ := validate_filename_true_elim s hv
    rcases h with h | h | h
    · rw [h1] at h; exact absurd h (by simp)
    · rw [h2] at h; exact absurd h (by simp)
    · rw [h3] at h; exact absurd h (by simp)

/-- C1 witness: the amended theorem applied at the concrete input
`notes.txt`, which does not end in `.pdf`. -/
theorem validate_filename_rejects_witness :
    validate_filename "notes.txt".toList = false :=
  validate_filename_rejects _ (Or.inr (Or.inr (by decide)))

-- C10 -------------------------------------------------------------------

/-- C10: `sanitize_input` is not bounded by `maxLength` — for an input with
an angle bracket, escaping (applied after truncation) expands the text past
the bound. -/
theorem sanitize_input_exceeds_max_length :
    ∃ (s : Str) (m : Nat), s.contains '<' = true ∧
      m < (sanitize_input s m).length := by
  refine ⟨['<'], 1, by decide, by decide⟩

-- C5 --------------------------------------------------------------------

/-- C5 counterexample: an input of 57 characters (longer than 50) that
`validate_model_name` accepts, because the source strips whitespace before
measuring the length. -/
theorem validate_model_name_accepts_long_padded :
    50 < ("llama2".toList ++ List.replicate 51 ' ').length ∧
      validate_model_name ("llama2".toList ++ List.replicate 51 ' ') = true := by
  constructor
  · decide
  · decide

/-- Correspondence of the Boolean prefix test with `List.IsPrefix`. -/
theorem startsWithL_iff (s p : Str) : startsWithL s p = true ↔ p <+: s := by
  induction p generalizing s with
  | nil => simp [startsWithL]
  | cons b p ih =>
    cases s with
    | nil => simp [startsWithL]
    | cons a s =>
      simp only [startsWithL, Bool.and_eq_true, beq_iff_eq, ih,
        List.cons_prefix_cons]
      constructor
      · rintro ⟨h1, h2⟩; exact ⟨h1.symm, h2⟩
      · rintro ⟨h1, h2⟩; exact ⟨h1.symm, h2⟩

/-- C5 (amended): `validate_model_name` accepts exactly the inputs whose
lower-cased, stripped form is at most 50 characters long and is an allow-list
entry or extends one by a colon; and it is case-insensitive.  The length
bound applies to the normalized form, not the raw input. -/
theorem validate_model_name_spec (s : Str) :
    (validate_model_name s = true ↔
      (pyStrip (lowerStr s)).length ≤ 50 ∧
        ∃ a ∈ ALLOWED_MODELS, pyStrip (lowerStr s) = a ∨
          a ++ [':'] <+: pyStrip (lowerStr s)) ∧
    validate_model_name s = validate_model_name (lowerStr s) := by
  constructor
  · cases s with
    | nil => decide
    | cons c0 s0 =>
      unfold validate_model_name
      rw [if_neg (by simp)]
      by_cases hlen : 50 < (pyStrip (lowerStr (c0 :: s0))).length
      · rw [if_pos hlen]
        constructor
        · intro h; exact absurd h (by simp)
        · intro h; exact absurd h.1 (by omega)
      · rw [if_neg hlen]
        rw [List.any_eq_true]
        constructor
        · rintro ⟨a, ha, hp⟩
          refine ⟨by omega, a, ha, ?_⟩
          simp only [Bool.or_eq_true, beq_iff_eq, startsWithL_iff] at hp
          exact hp
        · rintro ⟨-, a, ha, hp⟩
          refine ⟨a, ha, ?_⟩
          simp only [Bool.or_eq_true, beq_iff_eq, startsWithL_iff]
          exact hp
  · unfold validate_model_name
    have hemp : s.isEmpty = (lowerStr s).isEmpty := by
      cases s <;> simp [lowerStr]
    have hnorm : pyStrip (lowerStr (lowerStr s)) = pyStrip (lowerStr s) := by
      rw [lowerStr_idem]
    rw [← hemp, hnorm]

-- Rate limiter (C6) -----------------------------------------------------

/-- Per-identity request-timestamp map, the embedding of the module-level
`request_times` dictionary (`app.py` line 41). -/
abbrev RateMap := List (Nat × List Int)

/-- Lookup of one identity's window; a missing key reads as the empty list,
matching the `client_ip not in request_times` handling of the source. -/
def lookupTimes (ip : Nat) : RateMap → List Int
  | [] => []
  | (k, v) :: rest => if k = ip then v else lookupTimes ip rest

/-- Removal of an identity's entry. -/
def eraseTimes (ip : Nat) (m : RateMap) : RateMap :=
  m.filter (fun p => decide (p.1 ≠ ip))

/-- Assignment `request_times[client_ip] = v`. -/
def setTimes (ip : Nat) (v : List Int) (m : RateMap) : RateMap :=
  (ip, v) :: eraseTimes ip m

/-- Embedding of one admission decision of the `rate_limit` decorator
(`app.py` lines 59-82): prune entries older than the 60-second window,
reject if 10 or more survive, otherwise record the current timestamp.
Timestamps are integers; `time.time()` is real-valued but only differences
against the window length matter. -/
def rate_limit (m : RateMap) (ip : Nat) (now : Int) : Bool × RateMap :=
  if 10 ≤ ((lookupTimes ip m).filter (fun t => decide (now - t < 60))).length
  then (false, setTimes ip ((lookupTimes ip m).filter
    (fun t => decide (now - t < 60))) m)
  else (true, setTimes ip ((lookupTimes ip m).filter
    (fun t => decide (now - t < 60)) ++ [now]) m)

/-- A sequence of admission calls from one identity: the per-call results and
the final map. -/
def rateSeq (m : RateMap) (ip : Nat) : List Int → List Bool × RateMap
  | [] => ([], m)
  | t :: rest =>
    ((rate_limit m ip t).1 :: (rateSeq (rate_limit m ip t).2 ip rest).1,
      (rateSeq (rate_limit m ip t).2 ip rest).2)

theorem lookupTimes_setTimes (ip : Nat) (v : List Int) (m : RateMap) :
    lookupTimes ip (setTimes ip v m) = v := by
  simp [setTimes, lookupTimes]

theorem setTimes_setTimes (ip : Nat) (v w : List Int) (m : RateMap) :
    setTimes ip v (setTimes ip w m) = setTimes ip v m := by
  simp [setTimes, eraseTimes, List.filter_filter]

/-- Composition of call sequences. -/
theorem rateSeq_append (ip : Nat) (xs ys : List Int) : ∀ (m : RateMap),
    rateSeq m ip (xs ++ ys) =
      ((rateSeq m ip xs).1 ++ (rateSeq (rateSeq m ip xs).2 ip ys).1,
        (rateSeq (rateSeq m ip xs).2 ip ys).2) := by
  induction xs with
  | nil => intro m; simp [rateSeq]
  | cons x xs ih =>
    intro m
    simp only [List.cons_append, rateSeq, List.append_eq, ih]

/-- Monotone calls within the window are all admitted while fewer than 10
entries have accumulated. -/
theorem rateSeq_all_admitted (ip : Nat) :
    ∀ (ts : List Int) (t0 : Int) (m : RateMap) (cur : List Int),
      lookupTimes ip m = cur →
      (cur ++ t0 :: ts).length ≤ 10 →
      (cur ++ t0 :: ts).Pairwise (fun a b => a ≤ b ∧ b - a < 60) →
      rateSeq m ip (t0 :: ts) =
        (List.replicate (ts.length + 1) true, setTimes ip (cur ++ t0 :: ts) m) := by
  intro ts
  induction ts with
  | nil =>
    intro t0 m cur hcur hlen hpw
    have hall : ∀ a ∈ cur, (fun t => decide (t0 - t < 60)) a = true := by
      intro a ha
      have h1 := (List.pairwise_append.mp hpw).2.2 a ha t0 (by simp)
      simp only [decide_eq_true_eq]
      omega
    have hfilter : cur.filter (fun t => decide (t0 - t < 60)) = cur :=
      List.filter_eq_self.mpr hall
    have hclen : cur.length ≤ 9 := by
      have := hlen
      simp at this
      omega
    simp only [rateSeq, rate_limit, hcur, hfilter]
    rw [if_neg (by omega)]
    simp
  | cons t1 ts ih =>
    intro t0 m cur hcur hlen hpw
    have hall : ∀ a ∈ cur, (fun t => decide (t0 - t < 60)) a = true := by
      intro a ha
      have h1 := (List.pairwise_append.mp hpw).2.2 a ha t0 (by simp)
      simp only [decide_eq_true_eq]
      omega
    have hfilter : cur.filter (fun t => decide (t0 - t < 60)) = cur :=
      List.filter_eq_self.mpr hall
    have hclen : cur.length ≤ 8 := by
      have := hlen
      simp at this
      omega
    have hstep : rate_limit m ip t0 = (true, setTimes ip (cur ++ [t0]) m) := by
      simp only [rate_limit, hcur, hfilter]
      rw [if_neg (by omega)]
    have hrec := ih t1 (setTimes ip (cur ++ [t0]) m) (cur ++ [t0])
      (lookupTimes_setTimes ip _ m)
      (by simpa using hlen)
      (by rw [List.append_assoc]; simpa using hpw)
    have hgoal : rateSeq m ip (t0 :: t1 :: ts) =
        ((rate_limit m ip t0).1 :: (rateSeq (rate_limit m ip t0).2 ip (t1 :: ts)).1,
          (rateSeq (rate_limit m ip t0).2 ip (t1 :: ts)).2) := rfl
    rw [hgoal, hstep]
    rw [hrec, setTimes_setTimes]
    rw [List.append_assoc]
    simp [List.replicate_succ]

/-- C6: for any client identity, with the 60-second window and ceiling of 10,
a monotone sequence of 11 calls whose timestamps all lie within 60 seconds of
one another has its first 10 calls admitted and the 11th rejected; a later
call made at least 60 seconds after every one of them is admitted again. -/
theorem rate_limit_window (ip : Nat) (ts : List Int) (t11 tlater : Int)
    (hlen : ts.length = 10)
    (hpw : (ts ++ [t11]).Pairwise (fun a b => a ≤ b ∧ b - a < 60))
    (hfar : ∀ t ∈ ts ++ [t11], tlater - t ≥ 60) :
    rateSeq [] ip (ts ++ [t11, tlater]) =
      (List.replicate 10 true ++ [false, true], [(ip, [tlater])]) := by
  cases ts with
  | nil => simp at hlen
  | cons t0 ts0 =>
    have hlen0 : ts0.length = 9 := by simp at hlen; omega
    have h10 := rateSeq_all_admitted ip ts0 t0 [] [] rfl
      (by simp [hlen0])
      (by simpa using (List.pairwise_append.mp hpw).1)
    simp only [List.nil_append] at h10
    have hm1 : setTimes ip (t0 :: ts0) [] = [(ip, t0 :: ts0)] := by
      simp [setTimes, eraseTimes]
    rw [hm1] at h10
    -- the 11th call: all ten timestamps survive pruning, so it is rejected
    have hallin : ∀ a ∈ t0 :: ts0, (fun t => decide (t11 - t < 60)) a = true := by
      intro a ha
      have h1 := (List.pairwise_append.mp hpw).2.2 a ha t11 (by simp)
      simp only [decide_eq_true_eq]
      omega
    have hf11 : (t0 :: ts0).filter (fun t => decide (t11 - t < 60)) = t0 :: ts0 :=
      List.filter_eq_self.mpr hallin
    have hlk : lookupTimes ip [(ip, t0 :: ts0)] = t0 :: ts0 := by
      simp [lookupTimes]
    have hstep11 : rate_limit [(ip, t0 :: ts0)] ip t11 =
        (false, [(ip, t0 :: ts0)]) := by
      unfold rate_limit
      rw [hlk, hf11]
      rw [if_pos (by omega)]
      simp [setTimes, eraseTimes]
    -- the later call: every entry is pruned, so it is admitted
    have hallout : ∀ a ∈ t0 :: ts0, (fun t => decide (tlater - t < 60)) a = false := by
      intro a ha
      have h1 := hfar a (List.mem_append_left _ ha)
      simp only [decide_eq_false_iff_not]
      omega
    have hflater : (t0 :: ts0).filter (fun t => decide (tlater - t < 60)) = [] := by
      rw [List.filter_eq_nil_iff]
      intro a ha
      simp [hallout a ha]
    have hsteplater : rate_limit [(ip, t0 :: ts0)] ip tlater =
        (true, [(ip, [tlater])]) := by
      unfold rate_limit
      rw [hlk, hflater]
      rw [if_neg (by simp)]
      simp [setTimes, eraseTimes]
    have htwo : rateSeq [(ip, t0 :: ts0)] ip [t11, tlater] =
        ([false, true], [(ip, [tlater])]) := by
      have e1 : rateSeq [(ip, t0 :: ts0)] ip [t11, tlater] =
          ((rate_limit [(ip, t0 :: ts0)] ip t11).1 ::
            (rateSeq (rate_limit [(ip, t0 :: ts0)] ip t11).2 ip [tlater]).1,
            (rateSeq (rate_limit [(ip, t0 :: ts0)] ip t11).2 ip [tlater]).2) := rfl
      rw [e1, hstep11]
      have e2 : rateSeq [(ip, t0 :: ts0)] ip [tlater] =
          ((rate_limit [(ip, t0 :: ts0)] ip tlater).1 ::
            (rateSeq (rate_limit [(ip, t0 :: ts0)] ip tlater).2 ip []).1,
            (rateSeq (rate_limit [(ip, t0 :: ts0)] ip tlater).2 ip []).2) := rfl
      simp only [e2, hsteplater]
      rfl
    rw [rateSeq_append ip (t0 :: ts0) [t11, tlater] []]
    rw [h10, htwo, hlen0]

/-- C6 witness: eleven calls at time 0 and a twelfth at time 60. -/
theorem rate_limit_window_witness :
    rateSeq [] 0 (List.replicate 10 (0 : Int) ++ [0, 60]) =
      (List.replicate 10 true ++ [false, true], [(0, [60])]) :=
  rate_limit_window 0 (List.replicate 10 (0 : Int)) 0 60 (by decide)
    (by decide) (by decide)

-- Installer (C2) --------------------------------------------------------

/-- Outcome of a `subprocess.run` call: normal zero exit, a
`CalledProcessError` (non-zero exit under `check=True`), or a
`TimeoutExpired`. -/
inductive RunOutcome
  | ok
  | errExit
  | timedOut
deriving DecidableEq

/-- Environment of one `install_ollama` execution: the outcome of each
external effect the function performs. -/
structure InstallEnv where
  curl : RunOutcome
  curlWrote : Bool
  size : Nat
  sh : RunOutcome
  probe : Bool
deriving DecidableEq

/-- Embedding of `LLMManager.install_ollama` (`app.py` lines 221-288).
The result is the returned Boolean paired with whether the downloaded
installer script `/tmp/ollama_install.sh` is still on disk at return.
`safe_remove_file` (lines 117-125) is modelled as making the file absent.
The curl-failure branches leave whatever curl wrote; the handlers for
`TimeoutExpired` (line 276) and `CalledProcessError` (line 280) are entered
from the `sh` run at line 255 before the deletion at line 267 is reached. -/
def install_ollama (e : InstallEnv) : Bool × Bool :=
  match e.curl with
  | .errExit => (false, e.curlWrote)
  | .timedOut => (false, e.curlWrote)
  | .ok =>
    if e.curlWrote = false then (false, false)
    else if 1000000 < e.size ∨ e.size < 100 then (false, false)
    else match e.sh with
      | .timedOut => (false, true)
      | .errExit => (false, true)
      | .ok => if e.probe then (true, false) else (false, false)

/-- The installer artifact was downloaded to disk in this execution. -/
def installerDownloaded (e : InstallEnv) : Bool :=
  decide (e.curl = RunOutcome.ok) && e.curlWrote

/-- C2 counterexample: the installer script is downloaded, the `sh` run times
out, and `install_ollama` returns with the artifact still on disk. -/
theorem install_ollama_leaves_artifact :
    installerDownloaded ⟨.ok, true, 500, .timedOut, false⟩ = true ∧
      install_ollama ⟨.ok, true, 500, .timedOut, false⟩ = (false, true) := by
  constructor
  · decide
  · decide

/-- C2 (amended): when the artifact was downloaded, it is deleted before
return exactly on the size-violation path and on the paths where the
installer subprocess exits normally (including a failed post-install probe);
on an installer timeout or non-zero installer exit the exception handler is
entered before the deletion statement and the artifact remains on disk. -/
theorem install_ollama_cleanup_spec (e : InstallEnv)
    (h : installerDownloaded e = true) :
    (install_ollama e).2 = false ↔
      (1000000 < e.size ∨ e.size < 100 ∨ e.sh = RunOutcome.ok) := by
  obtain ⟨c, w, sz, sh, pr⟩ := e
  simp only [installerDownloaded, Bool.and_eq_true, decide_eq_true_eq] at h
  obtain ⟨hc, hw⟩ := h
  subst hc
  subst hw
  by_cases h1 : 1000000 < sz
  · simp [install_ollama, h1]
  · by_cases h2 : sz < 100
    · simp [install_ollama, h1, h2]
    · cases sh with
      | ok => cases pr <;> simp [install_ollama, h1, h2]
      | errExit => simp [install_ollama, h1, h2]
      | timedOut => simp [install_ollama, h1, h2]

/-- C2 witness: a successful run of the installer deletes the artifact. -/
theorem install_ollama_cleanup_spec_witness :
    (install_ollama ⟨.ok, true, 500, .ok, true⟩).2 = false :=
  (install_ollama_cleanup_spec ⟨.ok, true, 500, .ok, true⟩ (by decide)).mpr
    (by decide)

-- Configuration (C7, C8) ------------------------------------------------

/-- Shape of the `model_name` value found in a parsed JSON dict: a string or
some other JSON value (number, list, ...). -/
inductive JVal
  | str (s : Str)
  | other
deriving DecidableEq

/-- The in-memory configuration record.  `model_name` is an `Option` because
a parsed dict may lack the key entirely, in which case the source returns the
dict without it. -/
structure Config where
  ollama_installed : Bool
  ollama_path : Option Str
  model_name : Option JVal
  model_downloaded : Bool
  setup_complete : Bool
deriving DecidableEq

/-- The on-disk state `load_config` can encounter: no file, unreadable or
unparseable content (`IOError` / `json.JSONDecodeError`), parseable but not a
dict (the `ValueError` branch), or a parsed dict with the given fields. -/
inductive DiskConfig
  | missing
  | unreadable
  | nondict
  | dict (model_name : Option JVal) (path : Option Str)
      (installed downloaded complete : Bool)

/-- The safe-default record of `app.py` lines 153-159. -/
def defaultConfig : Config :=
  { ollama_installed := false, ollama_path := none,
    model_name := some (.str "llama2".toList),
    model_downloaded := false, setup_complete := false }

/-- Embedding of `LLMManager.load_config` (`app.py` lines 139-159): missing,
unreadable and non-dict content yield the defaults; a parsed dict is returned
as-is except that a present-but-invalid `model_name` is reset to `llama2`. -/
def load_config : DiskConfig → Config
  | .missing => defaultConfig
  | .unreadable => defaultConfig
  | .nondict => defaultConfig
  | .dict mn p i dl c =>
    { ollama_installed := i, ollama_path := p,
      model_name :=
        match mn with
        | none => none
        | some (.str s) =>
          if validate_model_name s then some (.str s)
          else some (.str "llama2".toList)
        | some .other => some (.str "llama2".toList),
      model_downloaded := dl, setup_complete := c }

/-- Embedding of the `/set_model` route (`app.py` lines 681-704): after the
validation gate the raw request string is stored.  The Boolean is the
success/failure of the request. -/
def set_model (c : Config) (name : Str) : Config × Bool :=
  if validate_model_name name then
    ({ c with model_name := some (.str name) }, true)
  else (c, false)

/-- Outcome of the `ollama pull` subprocess in `download_model`. -/
inductive PullOutcome
  | exitZero
  | exitNonZero
  | waitTimeout
  | readTimeout
deriving DecidableEq

/-- Embedding of `LLMManager.download_model` (`app.py` lines 374-433) called
with an explicit model name, as `auto_setup` does: on a clean zero exit the
name and downloaded flag are persisted; every failure leaves the
configuration unchanged. -/
def download_model (c : Config) (name : Str) (out : PullOutcome) : Config × Bool :=
  if validate_model_name name then
    match out with
    | .exitZero =>
      ({ c with model_name := some (.str name), model_downloaded := true }, true)
    | _ => (c, false)
  else (c, false)

/-- Environment of one `auto_setup` run: outcomes of the external probes and
of the pull subprocess. -/
structure SetupEnv where
  versionOk : Bool
  whichPath : Option Str
  serviceOk : Bool
  modelPresent : Bool
  pull : PullOutcome

/-- Embedding of `LLMManager.check_ollama_installed` (`app.py` lines
183-201): a successful version probe records installation and path. -/
def check_ollama_installed (c : Config) (env : SetupEnv) : Config × Bool :=
  if env.versionOk then
    ({ c with ollama_installed := true, ollama_path := env.whichPath }, true)
  else (c, false)

/-- Embedding of `LLMManager.check_model_downloaded` (`app.py` lines 351-372)
with an explicit name: an invalid name or an absent catalog entry changes
nothing; a present entry records the download. -/
def check_model_downloaded (c : Config) (name : Str) (present : Bool) :
    Config × Bool :=
  if validate_model_name name then
    if present then ({ c with model_downloaded := true }, true)
    else (c, false)
  else (c, false)

/-- Embedding of the configuration evolution of `LLMManager.auto_setup`
(`app.py` lines 453-495): validation gate, install probe, service start,
model check, download, and the final `setup_complete` write. -/
def auto_setup (c : Config) (name : Str) (env : SetupEnv) : Config × Bool :=
  if validate_model_name name then
    if (check_ollama_installed c env).2 then
      if env.serviceOk then
        if (check_model_downloaded (check_ollama_installed c env).1 name
            env.modelPresent).2 then
          ({ (check_model_downloaded (check_ollama_installed c env).1 name
              env.modelPresent).1 with setup_complete := true }, true)
        else if (download_model (check_model_downloaded
            (check_ollama_installed c env).1 name env.modelPresent).1 name
            env.pull).2 then
          ({ (download_model (check_model_downloaded
              (check_ollama_installed c env).1 name env.modelPresent).1 name
              env.pull).1 with setup_complete := true }, true)
        else ((download_model (check_model_downloaded
            (check_ollama_installed c env).1 name env.modelPresent).1 name
            env.pull).1, false)
      else ((check_ollama_installed c env).1, false)
    else ((check_ollama_installed c env).1, false)
  else (c, false)

/-- The literal invariant of claim C7: the stored model name is itself an
allow-list member or a colon-suffixed extension of one. -/
def nameInAllowList (c : Config) : Prop :=
  ∃ s, c.model_name = some (JVal.str s) ∧
    (s ∈ ALLOWED_MODELS ∨ ∃ a ∈ ALLOWED_MODELS, a ++ [':'] <+: s)

/-- The invariant the source actually maintains: the stored model name, when
the field is present, is a string accepted by `validate_model_name`. -/
def nameValid (c : Config) : Prop :=
  ∀ v, c.model_name = some v →
    ∃ s, v = JVal.str s ∧ validate_model_name s = true

-- C7 --------------------------------------------------------------------

/-- C7 counterexample: a parsed dict without a `model_name` key loads to a
record with no model name at all, and `set_model` stores the raw mixed-case
request string `LLAMA2`, which is not literally in the allow-list. -/
theorem model_name_invariant_cex :
    ¬ nameInAllowList (load_config (.dict none none false false false)) ∧
      (set_model defaultConfig "LLAMA2".toList).2 = true ∧
      ¬ nameInAllowList (set_model defaultConfig "LLAMA2".toList).1 := by
  refine ⟨?_, by decide, ?_⟩
  · rintro ⟨s, hs, -⟩
    have hnone : (load_config (.dict none none false false false)).model_name =
        none := rfl
    rw [hnone] at hs
    cases hs
  · rintro ⟨s, hs, hmem⟩
    have he : (set_model defaultConfig "LLAMA2".toList).1.model_name =
        some (.str "LLAMA2".toList) := by decide
    rw [he] at hs
    have hs2 : "LLAMA2".toList = s := by
      injection hs with h1
      injection h1
    subst hs2
    rcases hmem with hmem | ⟨a, ha, hp⟩
    · exact absurd hmem (by decide)
    · have hany : ALLOWED_MODELS.any
          (fun x => startsWithL "LLAMA2".toList (x ++ [':'])) = true :=
        List.any_eq_true.mpr ⟨a, ha, (startsWithL_iff _ _).mpr hp⟩
      exact absurd hany (by decide)

/-- C7 (amended): after `load_config`, and preserved across `set_model`,
`download_model` and `auto_setup`, the configuration's model name — when the
field is present — is a string accepted by `validate_model_name`; that is,
its lower-cased trimmed form is an allow-list member or colon-suffixed
variant, though the stored string itself may differ in case or whitespace,
and a loaded dict may lack the field entirely. -/
theorem model_name_validated_invariant :
    (∀ d : DiskConfig, nameValid (load_config d)) ∧
    (∀ (c : Config) (n : Str), nameValid c → nameValid (set_model c n).1) ∧
    (∀ (c : Config) (n : Str) (out : PullOutcome), nameValid c →
      nameValid (download_model c n out).1) ∧
    (∀ (c : Config) (n : Str) (env : SetupEnv), nameValid c →
      nameValid (auto_setup c n env).1) := by
  have hdef : nameValid defaultConfig := by
    intro v hv
    injection hv with h1
    exact ⟨"llama2".toList, h1.symm, by decide⟩
  have hset : ∀ (c : Config) (n : Str), nameValid c → nameValid (set_model c n).1 := by
    intro c n hc
    unfold set_model
    by_cases hn : validate_model_name n = true
    · rw [if_pos hn]
      intro v hv
      injection hv with h1
      exact ⟨n, h1.symm, hn⟩
    · rw [if_neg hn]
      exact hc
  have hdl : ∀ (c : Config) (n : Str) (out : PullOutcome), nameValid c →
      nameValid (download_model c n out).1 := by
    intro c n out hc
    unfold download_model
    by_cases hn : validate_model_name n = true
    · rw [if_pos hn]
      cases out with
      | exitZero =>
        intro v hv
        injection hv with h1
        exact ⟨n, h1.symm, hn⟩
      | exitNonZero => exact hc
      | waitTimeout => exact hc
      | readTimeout => exact hc
    · rw [if_neg hn]
      exact hc
  refine ⟨?_, hset, hdl, ?_⟩
  · intro d
    cases d with
    | missing => exact hdef
    | unreadable => exact hdef
    | nondict => exact hdef
    | dict mn p i dl c =>
      cases mn with
      | none => intro v hv; cases hv
      | some j =>
        cases j with
        | str s =>
          by_cases hv : validate_model_name s = true
          · intro v hvv
            simp only [load_config, hv, if_pos] at hvv
            injection hvv with h1
            exact ⟨s, h1.symm, hv⟩
          · intro v hvv
            simp only [load_config, hv, if_neg] at hvv
            injection hvv with h1
            exact ⟨"llama2".toList, h1.symm, by decide⟩
        | other =>
          intro v hvv
          simp only [load_config] at hvv
          injection hvv with h1
          exact ⟨"llama2".toList, h1.symm, by decide⟩
  · intro c n env hc
    have hinst : nameValid (check_ollama_installed c env).1 := by
      unfold check_ollama_installed
      split
      · exact fun v hv => hc v hv
      · exact hc
    have hchk : nameValid (check_model_downloaded (check_ollama_installed c env).1
        n env.modelPresent).1 := by
      unfold check_model_downloaded
      split
      · split
        · exact fun v hv => hinst v hv
        · exact hinst
      · exact hinst
    have hdl2 : nameValid (download_model (check_model_downloaded
        (check_ollama_installed c env).1 n env.modelPresent).1 n env.pull).1 :=
      hdl _ n env.pull hchk
    unfold auto_setup
    split
    · split
      · split
        · split
          · exact fun v hv => hchk v hv
          · split
            · exact fun v hv => hdl2 v hv
            · exact hdl2
        · exact hinst
      · exact hinst
    · exact hc

/-- C7 witness: the amended invariant applied to a concrete successful
`auto_setup` run from the default configuration. -/
theorem model_name_validated_invariant_witness :
    nameValid (auto_setup defaultConfig "llama2".toList
      ⟨true, none, true, true, .exitZero⟩).1 :=
  model_name_validated_invariant.2.2.2 defaultConfig "llama2".toList
    ⟨true, none, true, true, .exitZero⟩
    (fun v hv => by
      injection hv with h1
      exact ⟨"llama2".toList, h1.symm, by decide⟩)

-- C8 --------------------------------------------------------------------

/-- C8 counterexample: a parseable dict carrying an invalid model name — a
corrupt configuration — is not replaced by the safe-default record; only the
model name is reset while the other fields are propagated. -/
theorem load_config_not_default_on_corrupt :
    validate_model_name "evil".toList = false ∧
      load_config (.dict (some (.str "evil".toList)) none true true true) ≠
        defaultConfig := by
  constructor
  · decide
  · decide

/-- C8 (amended): content that does not parse as a dict — a missing file,
unreadable or unparseable bytes, or a non-dict value — is replaced by the
safe-default record `{ollama_installed := false, ollama_path := none,
model_name := llama2, model_downloaded := false, setup_complete := false}`
and no error propagates; a parseable dict is returned with only an invalid
`model_name` individually reset. -/
theorem load_config_defaults_on_unparseable (d : DiskConfig)
    (h : ∀ mn p i dl c, d ≠ DiskConfig.dict mn p i dl c) :
    load_config d = defaultConfig := by
  cases d with
  | missing => rfl
  | unreadable => rfl
  | nondict => rfl
  | dict mn p i dl c => exact absurd rfl (h mn p i dl c)

/-- C8 witness: unparseable content loads as the default record. -/
theorem load_config_defaults_on_unparseable_witness :
    load_config .unreadable = defaultConfig :=
  load_config_defaults_on_unparseable .unreadable
    (fun _ _ _ _ _ h => DiskConfig.noConfusion h)

-- Request pipeline (C3, C9) ---------------------------------------------

/-- Character class kept by werkzeug's `secure_filename`
(regex `[A-Za-z0-9_.-]`), by ASCII code. -/
def isSecureKeep (c : Char) : Bool :=
  decide ((48 ≤ c.toNat ∧ c.toNat ≤ 57) ∨ (65 ≤ c.toNat ∧ c.toNat ≤ 90) ∨
    (97 ≤ c.toNat ∧ c.toNat ≤ 122) ∨ c.toNat = 95 ∨ c.toNat = 46 ∨ c.toNat = 45)

/-- Characters stripped from the ends by `secure_filename` (`.strip("._")`). -/
def isDotOrUnderscore (c : Char) : Bool :=
  decide (c.toNat = 46 ∨ c.toNat = 95)

/-- Lower-case hexadecimal digits, the alphabet of `secrets.token_hex`. -/
def isLowerHex (c : Char) : Bool :=
  decide ((48 ≤ c.toNat ∧ c.toNat ≤ 57) ∨ (97 ≤ c.toNat ∧ c.toNat ≤ 102))

/-- Python `str.strip(chars)`: removal from both ends. -/
def stripEnds (p : Char → Bool) (s : Str) : Str :=
  dropTrailing p (s.dropWhile p)

/-- Helper of `pySplitWs`: accumulator-based single pass. -/
def splitWsAux : Str → Str → List Str
  | [], acc => if acc.isEmpty then [] else [acc.reverse]
  | c :: rest, acc =>
    if isPySpace c then
      if acc.isEmpty then splitWsAux rest []
      else acc.reverse :: splitWsAux rest []
    else splitWsAux rest (c :: acc)

/-- Python `str.split()` with no argument: split on whitespace runs, with no
empty pieces. -/
def pySplitWs (s : Str) : List Str := splitWsAux s []

/-- Python `'_'.join(parts)`. -/
def joinUnderscore : List Str → Str
  | [] => []
  | [w] => w
  | w :: rest => w ++ '_' :: joinUnderscore rest

/-- Embedding of `werkzeug.utils.secure_filename` on POSIX: keep ASCII only
(the `encode('ascii', 'ignore')` step; NFKD decompositions of non-ASCII
characters are not modelled), replace the path separator by a space,
collapse whitespace runs to single underscores, drop characters outside
`[A-Za-z0-9_.-]`, and strip leading and trailing dots and underscores. -/
def secure_filename (s : Str) : Str :=
  stripEnds isDotOrUnderscore
    ((joinUnderscore (pySplitWs
      ((s.filter (fun c => decide (c.toNat ≤ 127))).map
        (fun c => if c = '/' then ' ' else c)))).filter isSecureKeep)

/-- Embedding of `pathlib.PurePath.stem` for a name without separators: the
name minus its suffix, where a suffix exists only when the last dot is
neither the first nor the last character. -/
def pathStem (s : Str) : Str :=
  if '.' ∈ s then
    if s.length - 1 - (s.reverse.takeWhile (fun c => decide (c ≠ '.'))).length = 0 ∨
        (s.reverse.takeWhile (fun c => decide (c ≠ '.'))).length = 0 then s
    else s.take (s.length - 1 -
      (s.reverse.takeWhile (fun c => decide (c ≠ '.'))).length)
  else s

/-- The output folder as a name-to-bytes store. -/
abbrev Store := List (Str × Str)

def storeLookup (k : Str) : Store → Option Str
  | [] => none
  | (k2, v) :: rest => if k2 = k then some v else storeLookup k rest

/-- Deletion of an artifact (`safe_remove_file` on an output path). -/
def storeErase (k : Str) (st : Store) : Store :=
  st.filter (fun p => decide (p.1 ≠ k))

/-- Creation of an artifact file with `open(path, 'w')`: any file of the
same name is truncated and replaced. -/
def storeWrite (k v : Str) (st : Store) : Store :=
  (k, v) :: storeErase k st

/-- Page-accumulation loop of `extract_pdf_text` (`app.py` lines 564-576):
a page that fails to extract (`none`) is skipped, non-empty page texts are
appended with a newline, and the text is truncated and the loop stopped once
it exceeds 500000 characters. -/
def accumPages : List (Option Str) → Str → Str
  | [], acc => acc
  | p :: rest, acc =>
    match p with
    | none => accumPages rest acc
    | some t =>
      if t.isEmpty then
        accumPages rest acc
      else
        if 500000 < (acc ++ t ++ ['\n']).length then
          (acc ++ t ++ ['\n']).take 500000
        else accumPages rest (acc ++ t ++ ['\n'])

/-- Embedding of `extract_pdf_text` (`app.py` lines 539-585): `none` models a
raised exception.  The per-page texts come from the external extraction
collaborator and are supplied as an environment list (`none` = that page
raised); at most 100 pages are processed; a whitespace-only total raises;
the result is sanitized at 500000 characters. -/
def extract_pdf_text (fileSize : Nat) (pages : List (Option Str)) : Option Str :=
  if 50 * 1024 * 1024 < fileSize then none
  else if (pyStrip (accumPages (pages.take 100) [])).isEmpty then none
  else some (sanitize_input (accumPages (pages.take 100) []) 500000)

/-- Embedding of `query_ollama` (`app.py` lines 587-622): the prompt and
context feed the request payload whose answer is the environment's
`engineResp` (`none` models a request failure, timeout, non-2xx status or
malformed JSON); the engine's response text is sanitized at 1000000
characters before being returned. -/
def query_ollama (_prompt _context : Str) (engineResp : Option Str) : Option Str :=
  match engineResp with
  | none => none
  | some r => some (sanitize_input r 1000000)

/-- Environment of one `/process_pdf` invocation: the request shape and the
outcome of each external effect. -/
structure PipeEnv where
  hasFile : Bool
  origName : Str
  fileSize : Nat
  pages : List (Option Str)
  promptText : Str
  engineResp : Option Str
  writeOk : Bool
  outTok : Str

/-- HTTP-level result of `/process_pdf`. -/
inductive PipeOut
  | success (output_file : Str) (original_name : Str)
  | clientErr
  | serverErr
deriving DecidableEq

/-- Embedding of the `/process_pdf` route (`app.py` lines 728-794).  The
result is the response, whether the uploaded file is still present in the
upload folder at return, and the updated output store.  `file.save` makes
the upload present; every subsequent branch passes through
`safe_remove_file`: the oversize branch at line 755, the inner `finally` at
lines 786-788 (success and exceptions), and the outer handler at lines
790-793. -/
def process_pdf (env : PipeEnv) (outputs : Store) : PipeOut × Bool × Store :=
  if env.hasFile = false then (.clientErr, false, outputs)
  else if env.origName.isEmpty then (.clientErr, false, outputs)
  else if validate_filename env.origName = false then (.clientErr, false, outputs)
  else if endsPdfCI (secure_filename env.origName) = false then
    (.clientErr, false, outputs)
  else if 50 * 1024 * 1024 < env.fileSize then (.clientErr, false, outputs)
  else
    match extract_pdf_text env.fileSize env.pages with
    | none => (.serverErr, false, outputs)
    | some pdf_text =>
      match query_ollama env.promptText pdf_text env.engineResp with
      | none => (.serverErr, false, outputs)
      | some llm_response =>
        if env.writeOk = false then (.serverErr, false, outputs)
        else
          (.success
            (env.outTok ++ '_' :: (pathStem (secure_filename env.origName) ++
              "_output.txt".toList))
            (pathStem (secure_filename env.origName) ++ "_output.txt".toList),
            false,
            storeWrite
              (env.outTok ++ '_' :: (pathStem (secure_filename env.origName) ++
                "_output.txt".toList))
              llm_response outputs)

/-- HTTP-level result of `/download/<filename>`. -/
inductive DlOut
  | file (bytes : Str)
  | badName
  | notFound
  | denied
deriving DecidableEq

/-- Embedding of the `/download/<filename>` route (`app.py` lines 796-826):
reject names that `secure_filename` would alter or empty out; 404 when no
such artifact file exists; the `abspath`/`startswith` containment check can
only fail for a name escaping the output folder, which in this
basename-keyed store model is a name containing a separator; on success the
bytes are sent and the artifact deleted by the `call_on_close` hook. -/
def download (name : Str) (st : Store) : DlOut × Store :=
  if (secure_filename name).isEmpty ∨ secure_filename name ≠ name then
    (.badName, st)
  else
    match storeLookup name st with
    | none => (.notFound, st)
    | some b =>
      if '/' ∈ name then (.denied, st)
      else (.file b, storeErase name st)

-- C3 --------------------------------------------------------------------

/-- C3: the uploaded document is absent from storage when `process_pdf`
returns, on every path: rejections before `file.save` never persist it, and
every path after `file.save` — success, oversize, extraction failure,
inference failure, and output-write failure — passes through a
`safe_remove_file` of the upload before returning. -/
theorem process_pdf_upload_deleted (env : PipeEnv) (outputs : Store) :
    (process_pdf env outputs).2.1 = false := by
  unfold process_pdf
  repeat' split
  all_goals rfl

-- C9 supporting lemmas --------------------------------------------------

/-- Membership survives trailing-removal. -/
theorem mem_dropTrailing {p : Char → Bool} {s : Str} {c : Char}
    (h : c ∈ dropTrailing p s) : c ∈ s := by
  unfold dropTrailing at h
  rw [List.mem_reverse] at h
  have h2 := (List.dropWhile_sublist (l := s.reverse) (p := p)).subset h
  rwa [List.mem_reverse] at h2

/-- Membership survives two-sided stripping. -/
theorem mem_stripEnds {p : Char → Bool} {s : Str} {c : Char}
    (h : c ∈ stripEnds p s) : c ∈ s := by
  unfold stripEnds at h
  exact (List.dropWhile_sublist (l := s) (p := p)).subset (mem_dropTrailing h)

/-- Every character of a `secure_filename` result is in the keep class. -/
theorem secure_filename_chars {s : Str} {c : Char} (h : c ∈ secure_filename s) :
    isSecureKeep c = true := by
  unfold secure_filename at h
  exact (List.mem_filter.mp (mem_stripEnds h)).2

/-- The stem is made of characters of the name. -/
theorem mem_pathStem {s : Str} {c : Char} (h : c ∈ pathStem s) : c ∈ s := by
  unfold pathStem at h
  split at h
  · split at h
    · exact h
    · exact (List.take_sublist _ _).subset h
  · exact h

/-- Splitting a whitespace-free string never splits. -/
theorem splitWsAux_no_space (s : Str) :
    ∀ acc, (∀ c ∈ s, isPySpace c = false) → acc ≠ [] →
      splitWsAux s acc = [acc.reverse ++ s] := by
  induction s with
  | nil =>
    intro acc _ hacc
    simp [splitWsAux, hacc]
  | cons c rest ih =>
    intro acc hall hacc
    have hc : isPySpace c = false := hall c (by simp)
    unfold splitWsAux
    rw [if_neg (by simp [hc])]
    rw [ih (c :: acc) (fun x hx => hall x (by simp [hx])) (by simp)]
    simp

theorem pySplitWs_single (s : Str) (hne : s ≠ [])
    (hall : ∀ c ∈ s, isPySpace c = false) : pySplitWs s = [s] := by
  obtain ⟨c, rest, rfl⟩ := List.exists_cons_of_ne_nil hne
  have hc : isPySpace c = false := hall c (by simp)
  unfold pySplitWs splitWsAux
  rw [if_neg (by simp [hc])]
  rw [splitWsAux_no_space rest [c] (fun x hx => hall x (by simp [hx])) (by simp)]
  simp

/-- Stripping is the identity when neither end is strippable. -/
theorem stripEnds_fixed (p : Char → Bool) (s : Str) (hne : s ≠ [])
    (hh : p s.headI = false) (hl : p s.reverse.headI = false) :
    stripEnds p s = s := by
  obtain ⟨c0, rest, rfl⟩ := List.exists_cons_of_ne_nil hne
  have hh2 : p c0 = false := by simpa using hh
  have h1 : (c0 :: rest).dropWhile p = c0 :: rest := by
    rw [List.dropWhile_cons, if_neg (by simp [hh2])]
  unfold stripEnds dropTrailing
  rw [h1]
  obtain ⟨d0, r2, hrev⟩ := List.exists_cons_of_ne_nil
    (show (c0 :: rest).reverse ≠ [] by simp)
  have hl2 : p d0 = false := by
    rw [hrev] at hl
    simpa using hl
  rw [hrev, List.dropWhile_cons, if_neg (by simp [hl2]), ← hrev,
    List.reverse_reverse]

/-- A nonempty string of keep-class characters, not starting or ending in a
dot or underscore, is a fixed point of `secure_filename`. -/
theorem secure_filename_fixed (s : Str) (hne : s ≠ [])
    (hcl : ∀ c ∈ s, isSecureKeep c = true)
    (hh : isDotOrUnderscore s.headI = false)
    (hl : isDotOrUnderscore s.reverse.headI = false) :
    secure_filename s = s := by
  have hascii : s.filter (fun c => decide (c.toNat ≤ 127)) = s := by
    refine List.filter_eq_self.mpr ?_
    intro c hc
    have h1 := hcl c hc
    simp only [isSecureKeep, decide_eq_true_eq] at h1
    simp only [decide_eq_true_eq]
    omega
  have hnoslash : s.map (fun c => if c = '/' then ' ' else c) = s := by
    have hmap : s.map (fun c => if c = '/' then ' ' else c) = s.map id := by
      refine List.map_congr_left ?_
      intro c hc
      have h1 := hcl c hc
      have hc47 : c ≠ '/' := by
        intro hcc
        subst hcc
        exact absurd h1 (by decide)
      simp [hc47]
    rw [hmap, List.map_id]
  have hnospace : ∀ c ∈ s, isPySpace c = false := by
    intro c hc
    have h1 := hcl c hc
    simp only [isSecureKeep, decide_eq_true_eq] at h1
    simp only [isPySpace, Bool.or_eq_false_iff, beq_eq_false_iff_ne, ne_eq]
    omega
  unfold secure_filename
  rw [hascii, hnoslash, pySplitWs_single s hne hnospace]
  rw [show joinUnderscore [s] = s from rfl]
  rw [List.filter_eq_self.mpr hcl]
  exact stripEnds_fixed _ s hne hh hl

theorem isSecureKeep_of_hex {c : Char} (h : isLowerHex c = true) :
    isSecureKeep c = true := by
  simp only [isLowerHex, decide_eq_true_eq] at h
  simp only [isSecureKeep, decide_eq_true_eq]
  omega

theorem not_strip_of_hex {c : Char} (h : isLowerHex c = true) :
    isDotOrUnderscore c = false := by
  simp only [isLowerHex, decide_eq_true_eq] at h
  simp only [isDotOrUnderscore, decide_eq_false_iff_not]
  omega

/-- Every character of a minted artifact identifier is in the keep class. -/
theorem artifact_id_chars (tok base : Str)
    (htokhex : ∀ c ∈ tok, isLowerHex c = true) :
    ∀ c ∈ tok ++ '_' :: (pathStem (secure_filename base) ++
      "_output.txt".toList), isSecureKeep c = true := by
  have hsfx : ∀ c ∈ "_output.txt".toList, isSecureKeep c = true := by decide
  intro c hc
  simp only [List.mem_append, List.mem_cons] at hc
  rcases hc with hc | hc | hc | hc
  · exact isSecureKeep_of_hex (htokhex c hc)
  · subst hc; decide
  · exact secure_filename_chars (mem_pathStem hc)
  · exact hsfx c hc

/-- The artifact identifier minted by `process_pdf` is a fixed point of
`secure_filename`, so the download route's name gate admits it unchanged. -/
theorem secure_filename_artifact_id (tok base : Str) (htokne : tok ≠ [])
    (htokhex : ∀ c ∈ tok, isLowerHex c = true) :
    secure_filename (tok ++ '_' :: (pathStem (secure_filename base) ++
        "_output.txt".toList)) =
      tok ++ '_' :: (pathStem (secure_filename base) ++ "_output.txt".toList) := by
  obtain ⟨t0, trest, rfl⟩ := List.exists_cons_of_ne_nil htokne
  apply secure_filename_fixed
  · simp
  · exact artifact_id_chars (t0 :: trest) base htokhex
  · have hhead : ((t0 :: trest) ++ '_' :: (pathStem (secure_filename base) ++
        "_output.txt".toList)).headI = t0 := by
      rw [List.cons_append]
      rfl
    rw [hhead]
    exact not_strip_of_hex (htokhex t0 (by simp))
  · have hassoc : (t0 :: trest) ++ '_' :: (pathStem (secure_filename base) ++
        "_output.txt".toList) =
        ((t0 :: trest) ++ '_' :: pathStem (secure_filename base)) ++
          "_output.txt".toList := by
      simp
    rw [hassoc, List.reverse_append]
    rw [show ("_output.txt".toList).reverse = 't' :: "xt.tuptuo_".toList by decide]
    rw [List.cons_append]
    show isDotOrUnderscore 't' = false
    decide

theorem storeLookup_write (k v : Str) (st : Store) :
    storeLookup k (storeWrite k v st) = some v := by
  simp [storeWrite, storeLookup]

theorem storeLookup_erase (k : Str) : ∀ st : Store,
    storeLookup k (storeErase k st) = none := by
  intro st
  induction st with
  | nil => rfl
  | cons p rest ih =>
    obtain ⟨k2, v⟩ := p
    rw [storeErase, List.filter_cons]
    by_cases hp : k2 = k
    · rw [if_neg (by simp [hp])]
      exact ih
    · rw [if_pos (by simp [hp])]
      rw [storeLookup, if_neg hp]
      exact ih

/-- A stored artifact whose name passes the gate is downloaded and deleted. -/
theorem download_found (name v : Str) (st : Store)
    (hfix : secure_filename name = name) (hne : name ≠ [])
    (hslash : ¬ ('/' ∈ name)) (hlk : storeLookup name st = some v) :
    download name st = (.file v, storeErase name st) := by
  unfold download
  rw [if_neg (by
    rw [hfix]
    push_neg
    exact ⟨by simpa using hne, rfl⟩)]
  simp only [hlk]
  rw [if_neg hslash]

/-- An absent artifact whose name passes the gate yields not-found. -/
theorem download_missing (name : Str) (st : Store)
    (hfix : secure_filename name = name) (hne : name ≠ [])
    (hlk : storeLookup name st = none) :
    download name st = (.notFound, st) := by
  unfold download
  rw [if_neg (by
    rw [hfix]
    push_neg
    exact ⟨by simpa using hne, rfl⟩)]
  simp only [hlk]

-- C9 --------------------------------------------------------------------

/-- C9: for an artifact identifier produced by a successful `process_pdf`
invocation, the first `download` returns exactly the bytes the invocation
wrote (the sanitized engine response) and deletes the artifact; a second
`download` of the same identifier fails with not-found.  The output token is
`secrets.token_hex(8)`, so it is a nonempty string of lower-case hex
digits. -/
theorem process_retrieve_roundtrip (env : PipeEnv) (st0 : Store)
    (htokne : env.outTok ≠ [])
    (htokhex : ∀ c ∈ env.outTok, isLowerHex c = true)
    (idArt orig : Str) (st1 : Store) (resp : Str)
    (hresp : env.engineResp = some resp)
    (hrun : process_pdf env st0 = (.success idArt orig, false, st1)) :
    download idArt st1 =
      (.file (sanitize_input resp 1000000), storeErase idArt st1) ∧
      (download idArt (storeErase idArt st1)).1 = .notFound := by
  unfold process_pdf at hrun
  repeat' split at hrun
  all_goals simp at hrun
  rename_i pdf_text hext llm_response hq hw
  obtain ⟨⟨hB, hO⟩, hW⟩ := hrun
  rw [hresp] at hq
  simp only [query_ollama, Option.some.injEq] at hq
  subst hB
  subst hW
  subst hq
  have hfix := secure_filename_artifact_id env.outTok env.origName htokne htokhex
  have hBne : env.outTok ++ '_' :: (pathStem (secure_filename env.origName) ++
      "_output.txt".toList) ≠ [] := by
    obtain ⟨t0, tr, htt⟩ := List.exists_cons_of_ne_nil htokne
    rw [htt]
    simp
  have hslash : ¬ ('/' ∈ env.outTok ++ '_' ::
      (pathStem (secure_filename env.origName) ++ "_output.txt".toList)) := by
    intro hmem
    have h1 := artifact_id_chars env.outTok env.origName htokhex '/' hmem
    exact absurd h1 (by decide)
  refine ⟨?_, ?_⟩
  · exact download_found _ _ _ hfix hBne hslash (storeLookup_write _ _ _)
  · exact congrArg Prod.fst (download_missing _ _ hfix hBne (storeLookup_erase _ _))

/-- C9 witness: a concrete document processed successfully, retrieved once
with the exact written bytes, and not found on the second retrieval. -/
theorem process_retrieve_roundtrip_witness :
    download "ab12_doc_output.txt".toList
        [("ab12_doc_output.txt".toList, "ok".toList)] =
      (.file (sanitize_input "ok".toList 1000000),
        storeErase "ab12_doc_output.txt".toList
          [("ab12_doc_output.txt".toList, "ok".toList)]) ∧
      (download "ab12_doc_output.txt".toList
        (storeErase "ab12_doc_output.txt".toList
          [("ab12_doc_output.txt".toList, "ok".toList)])).1 = .notFound :=
  process_retrieve_roundtrip
    { hasFile := true, origName := "doc.pdf".toList, fileSize := 100,
      pages := [some "hello".toList], promptText := [],
      engineResp := some "ok".toList, writeOk := true,
      outTok := "ab12".toList }
    [] (by decide) (by decide)
    "ab12_doc_output.txt".toList "doc_output.txt".toList
    [("ab12_doc_output.txt".toList, "ok".toList)] "ok".toList
    (by decide) (by decide)

-- Auto-setup concurrency (C4) -------------------------------------------

/-- State of two competing `auto_setup` invocations: the `setup_lock` holder
and each thread's position in the sequence. -/
structure LockState where
  holder : Option Bool
  pc : Bool → Nat

/-- Update of one thread's program counter. -/
def setPc (pc : Bool → Nat) (t : Bool) (n : Nat) : Bool → Nat :=
  fun u => if u = t then n else pc u

/-- One atomic step of thread `t` of `auto_setup` (`app.py` lines 453-495).
Positions: 0 `validate_model_name` (before the lock; an invalid name returns
immediately), 1 acquire `setup_lock` (the `with self.setup_lock` entry,
blocking while held), 2 `check_ollama_installed`, 3 `start_ollama_service`,
4 `check_model_downloaded`, 5 `download_model`, 6 `save_config` marking
`setup_complete`, 7 the final `update_progress`, 8 release the lock (leaving
the `with` block, also reached by every failing step's early return),
9 done.  `env t p` is the success of thread `t`'s step at position `p`;
`none` means the thread cannot move (finished, or blocked on the lock). -/
def setupStep (env : Bool → Nat → Bool) (s : LockState) (t : Bool) :
    Option LockState :=
  match s.pc t with
  | 0 => some ⟨s.holder, setPc s.pc t (if env t 0 then 1 else 9)⟩
  | 1 =>
    match s.holder with
    | none => some ⟨some t, setPc s.pc t 2⟩
    | some _ => none
  | 2 => some ⟨s.holder, setPc s.pc t (if env t 2 then 3 else 8)⟩
  | 3 => some ⟨s.holder, setPc s.pc t (if env t 3 then 4 else 8)⟩
  | 4 => some ⟨s.holder, setPc s.pc t (if env t 4 then 6 else 5)⟩
  | 5 => some ⟨s.holder, setPc s.pc t (if env t 5 then 6 else 8)⟩
  | 6 => some ⟨s.holder, setPc s.pc t 7⟩
  | 7 => some ⟨s.holder, setPc s.pc t 8⟩
  | 8 => if s.holder = some t then some ⟨none, setPc s.pc t 9⟩ else none
  | _ => none

/-- Scheduler execution: at each scheduling choice the chosen thread steps if
it can; the trace records each executed step as (thread, position). -/
def runSetup (env : Bool → Nat → Bool) : LockState → List Bool → List (Bool × Nat)
  | _, [] => []
  | s, t :: sched =>
    match setupStep env s t with
    | none => runSetup env s sched
    | some s2 => (t, s.pc t) :: runSetup env s2 sched

/-- Initial state: lock free, both threads at validation. -/
def setupInit : LockState := ⟨none, fun _ => 0⟩

/-- Positions of the setup sequence proper (the lock-protected state-machine
steps). -/
def isSeqStep (p : Nat) : Prop := 2 ≤ p ∧ p ≤ 7

/-- Thread `t` is inside the lock-held region. -/
def inCrit (s : LockState) (t : Bool) : Prop := 2 ≤ s.pc t ∧ s.pc t ≤ 8

/-- Lock invariant: a thread inside the region holds the lock. -/
def LockInv (s : LockState) : Prop := ∀ t, inCrit s t → s.holder = some t

/-- Trace position `i` is a sequence step executed by thread `t`. -/
def workAt (tr : List (Bool × Nat)) (i : Nat) (t : Bool) : Prop :=
  ∃ p, tr.get? i = some (t, p) ∧ isSeqStep p

/-- A step leaves the other thread's position unchanged. -/
theorem setupStep_pc_other {env : Bool → Nat → Bool} {s : LockState} {t2 : Bool}
    {s2 : LockState} (h : setupStep env s t2 = some s2) {t : Bool}
    (hne : t ≠ t2) : s2.pc t = s.pc t := by
  unfold setupStep at h
  split at h
  all_goals try (injection h with h2; rw [← h2]; simp [setPc, hne])
  all_goals try (cases h)
  · split at h
    · injection h with h2; rw [← h2]; simp [setPc, hne]
    · cases h
  · split at h
    · injection h with h2; rw [← h2]; simp [setPc, hne]
    · cases h

/-- A step from inside the sequence keeps the thread in the lock-held region. -/
theorem setupStep_crit_stay {env : Bool → Nat → Bool} {s : LockState} {a : Bool}
    {s2 : LockState} (h : setupStep env s a = some s2)
    (hin : isSeqStep (s.pc a)) : inCrit s2 a := by
  obtain ⟨hlo, hhi⟩ := hin
  unfold setupStep at h
  split at h
  all_goals try omega
  all_goals try (cases h)
  all_goals simp [inCrit, setPc]
  all_goals (split <;> omega)

/-- A release step (position 8) finishes the thread. -/
theorem setupStep_release {env : Bool → Nat → Bool} {s : LockState} {a : Bool}
    {s2 : LockState} (h : setupStep env s a = some s2) (hpc : s.pc a = 8) :
    s2.pc a = 9 := by
  unfold setupStep at h
  split at h
  all_goals try omega
  all_goals try (cases h)
  · split at h
    · cases h
      simp [setPc]
    · cases h

/-- Each step preserves the lock invariant. -/
theorem setupStep_inv {env : Bool → Nat → Bool} {s : LockState} {t : Bool}
    {s2 : LockState} (h : setupStep env s t = some s2) (hinv : LockInv s) :
    LockInv s2 := by
  intro u hu
  by_cases hut : u = t
  · subst hut
    -- the stepping thread: its region membership pins the source position
    unfold setupStep at h
    split at h
    all_goals try (cases h)
    -- position 0: the new position is 1 or 9, not in the region
    · exfalso
      obtain ⟨h1, h2⟩ := hu
      simp [setPc] at h1 h2
      revert h1 h2
      split <;> omega
    -- position 1 with the lock free: acquire
    · split at h
      · cases h
        rfl
      · cases h
    -- positions 2-7: the holder is unchanged and was `some u` already
    · exact hinv u ⟨by omega, by omega⟩
    · exact hinv u ⟨by omega, by omega⟩
    · exact hinv u ⟨by omega, by omega⟩
    · exact hinv u ⟨by omega, by omega⟩
    · exact hinv u ⟨by omega, by omega⟩
    · exact hinv u ⟨by omega, by omega⟩
    -- position 8: release leaves the region
    · split at h
      · cases h
        obtain ⟨h1, h2⟩ := hu
        simp [setPc] at h1 h2
      · cases h
  · -- the other thread: position unchanged, holder must already be `some u`
    have hpc : s2.pc u = s.pc u := setupStep_pc_other h hut
    have hyu : inCrit s u := by
      obtain ⟨h1, h2⟩ := hu
      rw [hpc] at h1 h2
      exact ⟨h1, h2⟩
    have hold : s.holder = some u := hinv u hyu
    unfold setupStep at h
    split at h
    all_goals try (cases h)
    · simp [hold]
    · split at h
      · rename_i heq
        rw [hold] at heq
        cases heq
      · cases h
    · simp [hold]
    · simp [hold]
    · simp [hold]
    · simp [hold]
    · simp [hold]
    · simp [hold]
    · split at h
      · rename_i heq
        rw [hold] at heq
        exact absurd (Option.some.inj heq) hut
      · cases h

/-- A finished thread never appears in the subsequent trace. -/
theorem runSetup_done (env : Bool → Nat → Bool) (t : Bool) :
    ∀ (sched : List Bool) (s : LockState), s.pc t = 9 →
      ∀ i p, (runSetup env s sched).get? i ≠ some (t, p) := by
  intro sched
  induction sched with
  | nil =>
    intro s _ i p
    simp [runSetup]
  | cons t2 sched ih =>
    intro s hdone i p
    by_cases htt : t2 = t
    · subst htt
      have hnone : setupStep env s t2 = none := by
        unfold setupStep
        rw [hdone]
      simp only [runSetup, hnone]
      exact ih s hdone i p
    · cases hstep : setupStep env s t2 with
      | none =>
        simp only [runSetup, hstep]
        exact ih s hdone i p
      | some s2 =>
        simp only [runSetup, hstep]
        have hpc : s2.pc t = 9 := by
          rw [setupStep_pc_other hstep (Ne.symm htt)]
          exact hdone
        cases i with
        | zero => simp [htt]
        | succ i => simpa using ih s2 hpc i p

/-- While thread `a` is inside the lock-held region and destined to perform
another sequence step, every earlier sequence step in the trace is also
`a`'s. -/
theorem crit_blocks_others (env : Bool → Nat → Bool) (a : Bool) :
    ∀ (sched : List Bool) (s : LockState), LockInv s → inCrit s a →
      ∀ j k b, j < k → workAt (runSetup env s sched) j b →
        workAt (runSetup env s sched) k a → b = a := by
  intro sched
  induction sched with
  | nil =>
    intro s _ _ j k b _ hj _
    obtain ⟨p, hp, -⟩ := hj
    simp [runSetup] at hp
  | cons t2 sched ih =>
    intro s hinv hin j k b hjk hj hk
    cases hstep : setupStep env s t2 with
    | none =>
      rw [runSetup, hstep] at hj hk
      exact ih s hinv hin j k b hjk hj hk
    | some s2 =>
      rw [runSetup, hstep] at hj hk
      have hinv2 : LockInv s2 := setupStep_inv hstep hinv
      cases j with
      | zero =>
        -- the first entry is a sequence step of `t2`, which must hold the
        -- lock, as must `a` — so `b = t2 = a`
        obtain ⟨p, hp, hps⟩ := hj
        simp only [List.get?_cons_zero, Option.some.injEq] at hp
        have hb : b = t2 := by
          have := congrArg Prod.fst hp
          simpa using this.symm
        have hcrit2 : inCrit s t2 := by
          have hpeq : p = s.pc t2 := by
            have := congrArg Prod.snd hp
            simpa using this.symm
          obtain ⟨h1, h2⟩ := hps
          rw [hpeq] at h1 h2
          exact ⟨h1, by omega⟩
        have e1 := hinv t2 hcrit2
        have e2 := hinv a hin
        rw [hb]
        rw [e1] at e2
        exact Option.some.inj e2
      | succ j =>
        cases k with
        | zero => omega
        | succ k =>
          simp only [List.get?_cons_succ] at hj hk
          by_cases hta : t2 = a
          · subst hta
            -- `a` itself stepped; it either stays in the region or released
            rcases Nat.lt_or_ge (s.pc t2) 8 with hlt | hge
            · have hin2 : inCrit s2 t2 :=
                setupStep_crit_stay hstep ⟨hin.1, by omega⟩
              exact ih s2 hinv2 hin2 j k b (by omega) hj hk
            · have hpc8 : s.pc t2 = 8 := by
                have := hin.2
                omega
              have hdone : s2.pc t2 = 9 := setupStep_release hstep hpc8
              obtain ⟨p, hp, -⟩ := hk
              exact absurd hp (runSetup_done env t2 sched s2 hdone k p)
          · have hin2 : inCrit s2 a := by
              have hpc := setupStep_pc_other hstep (fun hh => hta hh.symm)
              exact ⟨by rw [hpc]; exact hin.1, by rw [hpc]; exact hin.2⟩
            exact ih s2 hinv2 hin2 j k b (by omega) hj hk

/-- Induction to the first of the three trace positions of the
non-interleaving statement. -/
theorem no_interleave_aux (env : Bool → Nat → Bool) :
    ∀ (sched : List Bool) (s : LockState), LockInv s →
      ∀ i j k a b, i < j → j < k →
        workAt (runSetup env s sched) i a →
        workAt (runSetup env s sched) j b →
        workAt (runSetup env s sched) k a → b = a := by
  intro sched
  induction sched with
  | nil =>
    intro s _ i j k a b _ _ hi _ _
    obtain ⟨p, hp, -⟩ := hi
    simp [runSetup] at hp
  | cons t2 sched ih =>
    intro s hinv i j k a b hij hjk hi hj hk
    cases hstep : setupStep env s t2 with
    | none =>
      rw [runSetup, hstep] at hi hj hk
      exact ih s hinv i j k a b hij hjk hi hj hk
    | some s2 =>
      rw [runSetup, hstep] at hi hj hk
      have hinv2 : LockInv s2 := setupStep_inv hstep hinv
      cases i with
      | zero =>
        obtain ⟨p, hp, hps⟩ := hi
        simp only [List.get?_cons_zero, Option.some.injEq] at hp
        have hat : a = t2 := by
          have h1 := congrArg Prod.fst hp
          simpa using h1.symm
        have hpeq : p = s.pc t2 := by
          have h1 := congrArg Prod.snd hp
          simpa using h1.symm
        subst hat
        have hin2 : inCrit s2 a :=
          setupStep_crit_stay hstep (by rw [← hpeq]; exact hps)
        cases j with
        | zero => omega
        | succ j =>
          cases k with
          | zero => omega
          | succ k =>
            simp only [List.get?_cons_succ] at hj hk
            exact crit_blocks_others env a sched s2 hinv2 hin2 j k b
              (by omega) hj hk
      | succ i =>
        cases j with
        | zero => omega
        | succ j =>
          cases k with
          | zero => omega
          | succ k =>
            simp only [List.get?_cons_succ] at hi hj hk
            exact ih s2 hinv2 i j k a b (by omega) (by omega) hi hj hk

-- C4 --------------------------------------------------------------------

/-- C4: in every interleaved execution of two `auto_setup` invocations from
the initial state, the lock-protected sequence steps never interleave:
between two sequence steps of one thread the trace contains no sequence step
of the other thread.  A second invocation arriving while one is in progress
blocks at the `with self.setup_lock` acquisition until the first sequence
has finished, so at most one setup sequence executes at a time. -/
theorem auto_setup_no_interleave (env : Bool → Nat → Bool) (sched : List Bool)
    (i j k : Nat) (a b : Bool) (hij : i < j) (hjk : j < k)
    (hi : workAt (runSetup env setupInit sched) i a)
    (hj : workAt (runSetup env setupInit sched) j b)
    (hk : workAt (runSetup env setupInit sched) k a) : b = a :=
  no_interleave_aux env sched setupInit
    (fun t ht => absurd ht.1 (by simp [setupInit])) i j k a b hij hjk hi hj hk

/-- C4 witness: a schedule that runs one invocation to completion has its
sequence steps at trace positions 2, 3 and 4, all of the same thread. -/
theorem auto_setup_no_interleave_witness : (false : Bool) = false :=
  auto_setup_no_interleave (fun _ _ => true) (List.replicate 9 false) 2 3 4
    false false (by omega) (by omega)
    ⟨2, by decide, by constructor <;> omega⟩
    ⟨3, by decide, by constructor <;> omega⟩
    ⟨4, by decide, by constructor <;> omega⟩
